import Mathlib

/-!
Verification of the extraction engine in `tap_eloqua/sync.py`.

The Python module is shallowly embedded below: pure helpers become Lean
functions, the mutable run-state dictionary becomes an explicit `TapState`
value threaded through the functions, the network is modelled by passing the
sequence of server responses (poll statuses, result pages) as explicit data,
and `random.randint` is modelled by an explicit `draw` argument constrained by
hypotheses to the interval the source passes to it.  Python strings are
compared exactly as CPython compares them: lexicographically by code point,
via the executable `charListLt` below.
-/

namespace TapEloqua

/-- Lexicographic comparison of character lists, code point by code point.
This is exactly CPython's `<` on strings (a proper leading part is smaller). -/
def charListLt : List Char → List Char → Bool
  | [], [] => false
  | [], _ :: _ => true
  | _ :: _, [] => false
  | a :: as, b :: bs => if a < b then true else if b < a then false else charListLt as bs

/-- Python's `a < b` on strings. -/
def strLt (a b : String) : Bool := charListLt a.data b.data

/-- Python's `a <= b` on strings (the complement of `strLt b a`; the order is
total, see `strLt_total`). -/
def strLe (a b : String) : Bool := ! strLt b a

theorem charListLt_irrefl : ∀ l : List Char, charListLt l l = false := by
  intro l
  induction l with
  | nil => rfl
  | cons a as ih => simp [charListLt, lt_irrefl, ih]

theorem charListLt_trans : ∀ {l₁ l₂ l₃ : List Char},
    charListLt l₁ l₂ = true → charListLt l₂ l₃ = true → charListLt l₁ l₃ = true := by
  intro l₁
  induction l₁ with
  | nil =>
    intro l₂ l₃ h1 h2
    cases l₂ with
    | nil => simp [charListLt] at h1
    | cons b bs =>
      cases l₃ with
      | nil => simp [charListLt] at h2
      | cons c cs => simp [charListLt]
  | cons a as ih =>
    intro l₂ l₃ h1 h2
    cases l₂ with
    | nil => simp [charListLt] at h1
    | cons b bs =>
      cases l₃ with
      | nil => simp [charListLt] at h2
      | cons c cs =>
        simp only [charListLt] at h1 h2 ⊢
        by_cases hab : a < b
        · by_cases hbc : b < c
          · simp [lt_trans hab hbc]
          · by_cases hcb : c < b
            · simp [hbc, hcb] at h2
            · have hbc' : b = c := le_antisymm (not_lt.mp hcb) (not_lt.mp hbc)
              subst hbc'
              simp [hab]
        · by_cases hba : b < a
          · simp [hab, hba] at h1
          · have hab' : a = b := le_antisymm (not_lt.mp hba) (not_lt.mp hab)
            subst hab'
            simp only [lt_irrefl, if_false] at h1
            by_cases hbc : a < c
            · simp [hbc]
            · by_cases hcb : c < a
              · simp [hbc, hcb] at h2
              · simp only [hbc, hcb, if_false] at h2 ⊢
                exact ih h1 h2

theorem charListLt_total : ∀ l₁ l₂ : List Char,
    charListLt l₁ l₂ = true ∨ charListLt l₂ l₁ = true ∨ l₁ = l₂ := by
  intro l₁
  induction l₁ with
  | nil =>
    intro l₂
    cases l₂ with
    | nil => right; right; rfl
    | cons b bs => left; rfl
  | cons a as ih =>
    intro l₂
    cases l₂ with
    | nil => right; left; rfl
    | cons b bs =>
      rcases lt_trichotomy a b with hab | hab | hab
      · left; simp [charListLt, hab]
      · subst hab
        rcases ih bs with h | h | h
        · left; simp [charListLt, lt_irrefl, h]
        · right; left; simp [charListLt, lt_irrefl, h]
        · right; right; rw [h]
      · right; left; simp [charListLt, hab]

theorem strLt_irrefl (s : String) : strLt s s = false := charListLt_irrefl s.data

theorem strLt_trans {a b c : String} (h1 : strLt a b = true) (h2 : strLt b c = true) :
    strLt a c = true := charListLt_trans h1 h2

theorem strLt_total (a b : String) : strLt a b = true ∨ strLt b a = true ∨ a = b := by
  rcases charListLt_total a.data b.data with h | h | h
  · exact Or.inl h
  · exact Or.inr (Or.inl h)
  · refine Or.inr (Or.inr ?_)
    cases a; cases b; exact congrArg String.mk h

theorem strLt_asymm {a b : String} (h : strLt a b = true) : strLt b a = false := by
  by_contra hc
  have hba : strLt b a = true := by
    cases hqa : strLt b a with
    | true => rfl
    | false => exact absurd hqa hc
  have : strLt a a = true := strLt_trans h hba
  rw [strLt_irrefl] at this
  exact Bool.false_ne_true this

theorem strLt_neg_trans {a b c : String} (h1 : strLt a b = false) (h2 : strLt b c = false) :
    strLt a c = false := by
  cases hac : strLt a c with
  | false => rfl
  | true =>
    exfalso
    rcases strLt_total a b with hab | hba | heq
    · rw [hab] at h1; simp at h1
    · rcases strLt_total b c with hbc | hcb | heq'
      · rw [hbc] at h2; simp at h2
      · have : strLt a b = true := strLt_trans hac hcb
        rw [this] at h1; simp at h1
      · subst heq'
        rw [hac] at h1; simp at h1
    · subst heq
      rw [hac] at h2; simp at h2

/-! Module-level retry constants of `sync.py`. -/

def MIN_RETRY_INTERVAL : Nat := 2

def MAX_RETRY_INTERVAL : Nat := 300

def MAX_RETRY_ELAPSED_TIME : Nat := 3600

/-- The `min_interval = previous_sleep_interval or MIN_RETRY_INTERVAL` line:
Python `or` keeps a nonzero (truthy) previous value, else falls back. -/
def nsi_min_interval (previous_sleep_interval : Nat) : Nat :=
  if previous_sleep_interval ≠ 0 then previous_sleep_interval else MIN_RETRY_INTERVAL

/-- The `max_interval = previous_sleep_interval * 2 or MIN_RETRY_INTERVAL` line. -/
def nsi_max_interval (previous_sleep_interval : Nat) : Nat :=
  if previous_sleep_interval * 2 ≠ 0 then previous_sleep_interval * 2 else MIN_RETRY_INTERVAL

/-- Embeds `next_sleep_interval`.  `draw` stands for the value returned by
`random.randint(min_interval, max_interval)`; the theorems constrain it to
the closed range the source passes to `randint`. -/
def next_sleep_interval (previous_sleep_interval draw : Nat) : Nat :=
  min MAX_RETRY_INTERVAL draw

/-! Run-state blob and the Bookmark Store.  A Python dict is modelled as an
association list mutated by `setKey` (replace the first binding of the key, or
append a fresh one) and read by `lookupKey`. -/

def lookupKey {α : Type} : List (String × α) → String → Option α
  | [], _ => none
  | (k', v) :: rest, k => if k' = k then some v else lookupKey rest k

def setKey {α : Type} : List (String × α) → String → α → List (String × α)
  | [], k, v => [(k, v)]
  | (k', v') :: rest, k, v => if k' = k then (k, v) :: rest else (k', v') :: setKey rest k v

/-- The persisted run-state blob: `current_stream` and the `bookmarks` dict
(`none` models the key being absent from the blob). -/
structure TapState where
  current_stream : Option String
  bookmarks : Option (List (String × String))
deriving DecidableEq

/-- Embeds `get_bookmark` (sync.py lines 28-33).  The body looks up the
literal key `"visitors"` whatever `stream` it is asked about, exactly as the
source does. -/
def get_bookmark (state : TapState) (stream : String) (default : String) : String :=
  (lookupKey (state.bookmarks.getD []) "visitors").getD default

/-- Embeds `write_bookmark` (sync.py lines 35-39): create the `bookmarks` dict
if absent, then store `value` under `stream` (the `singer.write_state` flush
has no effect on the blob's value). -/
def write_bookmark (state : TapState) (stream : String) (value : String) : TapState :=
  { state with bookmarks := some (setKey (state.bookmarks.getD []) stream value) }

/-- C1: the claimed per-entity round trip `get_bookmark (write_bookmark state s v) s d = v`
fails on the code: `get_bookmark` ignores the requested stream and always
reads the `"visitors"` entry.  Writing the `campaigns` bookmark and reading it
back yields the default, while the same round trip for `visitors` succeeds. -/
theorem get_bookmark_ignores_requested_stream :
    get_bookmark (write_bookmark ⟨none, none⟩ "campaigns" "2021-05-05T00:00:00Z")
        "campaigns" "2017-01-01T00:00:00Z" = "2017-01-01T00:00:00Z" ∧
    ("2017-01-01T00:00:00Z" : String) ≠ "2021-05-05T00:00:00Z" ∧
    get_bookmark (write_bookmark ⟨none, none⟩ "visitors" "2021-05-05T00:00:00Z")
        "visitors" "2017-01-01T00:00:00Z" = "2021-05-05T00:00:00Z" :=
  ⟨rfl, by decide, rfl⟩

/-- C7: the backoff never exceeds `MAX_RETRY_INTERVAL = 300`; on the first
call (previous = 0) the `randint` range collapses to `[2, 2]` so the result is
exactly `MIN_RETRY_INTERVAL = 2`; on later calls the range is exactly
`[previous, previous * 2]` and the result is the draw capped at 300. -/
theorem next_sleep_interval_bounds :
    (∀ previous draw : Nat, next_sleep_interval previous draw ≤ MAX_RETRY_INTERVAL) ∧
    (∀ draw : Nat, nsi_min_interval 0 ≤ draw → draw ≤ nsi_max_interval 0 →
      next_sleep_interval 0 draw = MIN_RETRY_INTERVAL) ∧
    (∀ previous draw : Nat, previous ≠ 0 →
      nsi_min_interval previous = previous ∧
      nsi_max_interval previous = previous * 2 ∧
      (previous ≤ draw → draw ≤ previous * 2 →
        next_sleep_interval previous draw = min MAX_RETRY_INTERVAL draw)) := by
  refine ⟨fun previous draw => min_le_left _ _, ?_, ?_⟩
  · intro draw h1 h2
    have hmin : nsi_min_interval 0 = 2 := by decide
    have hmax : nsi_max_interval 0 = 2 := by decide
    rw [hmin] at h1
    rw [hmax] at h2
    have : draw = 2 := le_antisymm h2 h1
    subst this
    rfl
  · intro previous draw hp
    refine ⟨by simp [nsi_min_interval, hp], ?_, fun _ _ => rfl⟩
    have : previous * 2 ≠ 0 := by
      intro h
      rcases Nat.mul_eq_zero.mp h with h' | h'
      · exact hp h'
      · exact absurd h' (by decide)
    simp [nsi_max_interval, this]

/-- Witness for `next_sleep_interval_bounds` at concrete draws. -/
theorem next_sleep_interval_bounds_witness :
    next_sleep_interval 0 2 = MIN_RETRY_INTERVAL ∧
    next_sleep_interval 200 400 ≤ MAX_RETRY_INTERVAL ∧
    next_sleep_interval 150 280 = min MAX_RETRY_INTERVAL 280 :=
  ⟨next_sleep_interval_bounds.2.1 2 (by decide) (by decide),
   next_sleep_interval_bounds.1 200 400,
   ((next_sleep_interval_bounds.2.2 150 280 (by decide)).2.2 (by decide) (by decide))⟩

/-! Bulk-export result rows and the drain loop (`transform_export_row`,
`stream_export`).  A result row is a flat JSON object with string values,
modelled as an association list; a result page carries `hasMore` and an
optional `items` array (`none` models the `items` key being absent). -/

abbrev Row := List (String × String)

/-- Embeds `transform_export_row` (sync.py lines 60-66): empty-string values
become null (`none`), every other value passes through unchanged. -/
def transform_export_row (row : Row) : List (String × Option String) :=
  row.map (fun p => (p.1, if p.2 = "" then none else some p.2))

structure Page where
  hasMore : Bool
  items : Option (List Row)
deriving DecidableEq

/-- Python's `row[field]` (`none` models the KeyError crash, propagated). -/
def rowGet (row : Row) (field : String) : Option String := lookupKey row field

/-- The list `map(lambda x: x[updated_at_field], items)`, crashing (`none`)
if any row lacks the field. -/
def rowVals (field : String) : List Row → Option (List String)
  | [] => some []
  | r :: rs =>
    match rowGet r field, rowVals field rs with
    | some v, some vs => some (v :: vs)
    | _, _ => none

/-- One step of Python's `max`: keep the later value only when it is strictly
greater (ties keep the earlier value, as CPython's `max` does). -/
def keepMaxStr (a b : String) : String := if strLt a b then b else a

/-- Python's `max` over a list of strings (`none` on the empty list, where
CPython raises; the source only calls it on non-empty pages). -/
def listMaxStr : List String → Option String
  | [] => none
  | v :: vs => some (vs.foldl keepMaxStr v)

/-- The running-max update in `stream_export`: `if max_updated_at is None or
max_page_updated_at > max_updated_at: max_updated_at = max_page_updated_at`. -/
def optMaxStr : Option String → String → Option String
  | none, m => some m
  | some old, m => some (keepMaxStr old m)

def foldMaxStr (a : Option String) (vs : List String) : Option String :=
  vs.foldl optMaxStr a

/-- The max over `x[updated_at_field]` of the items of one page. -/
def pageMaxUpdatedAt (items : List Row) (field : String) : Option String :=
  match rowVals field items with
  | some vs => listMaxStr vs
  | none => none

/-- The `while has_true` loop of `stream_export` (sync.py lines 77-94) over the
successive sync-data responses: each page is emitted (normalized) and
folded into the running max; the loop continues exactly while the page just
fetched reported `hasMore`. -/
def stream_export_loop (updated_at_field : String) :
    List Page → Option String → List (List (String × Option String)) →
    Option (Option String × List (List (String × Option String)))
  | [], max_updated_at, out => some (max_updated_at, out)
  | page :: rest, max_updated_at, out =>
    match page.items with
    | some items =>
      if items.isEmpty then
        if page.hasMore then stream_export_loop updated_at_field rest max_updated_at out
        else some (max_updated_at, out)
      else
        match pageMaxUpdatedAt items updated_at_field with
        | none => none
        | some m =>
          if page.hasMore then
            stream_export_loop updated_at_field rest (optMaxStr max_updated_at m)
              (out ++ items.map transform_export_row)
          else some (optMaxStr max_updated_at m, out ++ items.map transform_export_row)
    | none =>
      if page.hasMore then stream_export_loop updated_at_field rest max_updated_at out
      else some (max_updated_at, out)

/-- Embeds `stream_export` (sync.py lines 68-97): drain all pages, then write
the running max as the stream's bookmark only when it is truthy (non-`None`
and non-empty).  Returns the new state and the emitted (normalized) records. -/
def stream_export (state : TapState) (stream_name updated_at_field : String)
    (pages : List Page) : Option (TapState × List (List (String × Option String))) :=
  match stream_export_loop updated_at_field pages none [] with
  | none => none
  | some (max_updated_at, out) =>
    match max_updated_at with
    | some v =>
      if v ≠ "" then some (write_bookmark state stream_name v, out)
      else some (state, out)
    | none => some (state, out)

/-- The rows of one page the drain loop processes: the `items` array when it
is present and non-empty (the source checks the key exists and is truthy). -/
def pageRows (page : Page) : List Row :=
  match page.items with
  | some items => if items.isEmpty then [] else items
  | none => []

/-- The rows the drain loop actually processes: the guarded `items` arrays of
the successive pages, up to and including the first page whose `hasMore` is
false. -/
def drainedRows : List Page → List Row
  | [] => []
  | page :: rest =>
    if page.hasMore then pageRows page ++ drainedRows rest else pageRows page

theorem keepMaxStr_assoc (a b c : String) :
    keepMaxStr a (keepMaxStr b c) = keepMaxStr (keepMaxStr a b) c := by
  unfold keepMaxStr
  cases hbc : strLt b c with
  | true =>
    cases hab : strLt a b with
    | true =>
      have hac : strLt a c = true := strLt_trans hab hbc
      simp [hab, hbc, hac]
    | false => simp [hab, hbc]
  | false =>
    cases hab : strLt a b with
    | true => simp [hab, hbc]
    | false =>
      have hac : strLt a c = false := strLt_neg_trans hab hbc
      simp [hab, hbc, hac]

theorem optMaxStr_keepMaxStr (a : Option String) (v w : String) :
    optMaxStr a (keepMaxStr v w) = optMaxStr (optMaxStr a v) w := by
  cases a with
  | none => rfl
  | some old => simp [optMaxStr, keepMaxStr_assoc]

theorem optMaxStr_foldl (vs : List String) : ∀ (v : String) (a : Option String),
    optMaxStr a (vs.foldl keepMaxStr v) = foldMaxStr (optMaxStr a v) vs := by
  induction vs with
  | nil => intro v a; rfl
  | cons w vs ih =>
    intro v a
    show optMaxStr a (vs.foldl keepMaxStr (keepMaxStr v w)) = foldMaxStr (optMaxStr a v) (w :: vs)
    rw [ih (keepMaxStr v w) a, optMaxStr_keepMaxStr]
    rfl

theorem foldMaxStr_append (a : Option String) (vs ws : List String) :
    foldMaxStr a (vs ++ ws) = foldMaxStr (foldMaxStr a vs) ws :=
  List.foldl_append ..

theorem rowVals_append (field : String) (rs ts : List Row) :
    rowVals field (rs ++ ts) =
      match rowVals field rs, rowVals field ts with
      | some a, some b => some (a ++ b)
      | _, _ => none := by
  induction rs with
  | nil =>
    cases h : rowVals field ts <;> simp [rowVals, h]
  | cons r rs ih =>
    show rowVals field (r :: (rs ++ ts)) = _
    cases hr : rowGet r field with
    | none =>
      simp only [rowVals, hr]
    | some v =>
      simp only [rowVals, hr, ih]
      cases h1 : rowVals field rs with
      | none =>
        cases h2 : rowVals field ts <;> rfl
      | some a =>
        cases h2 : rowVals field ts <;> rfl

theorem rowVals_length (field : String) : ∀ {rs : List Row} {vs : List String},
    rowVals field rs = some vs → vs.length = rs.length := by
  intro rs
  induction rs with
  | nil => intro vs h; cases h; rfl
  | cons r rs ih =>
    intro vs h
    cases hr : rowGet r field with
    | none => simp [rowVals, hr] at h
    | some v =>
      cases ht : rowVals field rs with
      | none => simp [rowVals, hr, ht] at h
      | some ws =>
        simp only [rowVals, hr, ht] at h
        cases h
        simp [ih ht]

theorem foldMaxStr_some (x : String) (vs : List String) :
    foldMaxStr (some x) vs = some (vs.foldl keepMaxStr x) := by
  induction vs generalizing x with
  | nil => rfl
  | cons w vs ih =>
    show foldMaxStr (optMaxStr (some x) w) vs = _
    simp only [optMaxStr, ih]
    rfl

theorem foldMaxStr_none (vs : List String) : foldMaxStr none vs = listMaxStr vs := by
  cases vs with
  | nil => rfl
  | cons v vs =>
    show foldMaxStr (optMaxStr none v) vs = _
    simp only [optMaxStr, foldMaxStr_some]
    rfl

theorem strLe_refl (a : String) : strLe a a = true := by
  simp [strLe, strLt_irrefl]

theorem strLe_trans {a b c : String} (h1 : strLe a b = true) (h2 : strLe b c = true) :
    strLe a c = true := by
  simp only [strLe, Bool.not_eq_true'] at h1 h2 ⊢
  exact strLt_neg_trans h2 h1

theorem strLe_keepMaxStr_left (a w : String) : strLe a (keepMaxStr a w) = true := by
  cases h : strLt a w with
  | true =>
    have := strLt_asymm h
    simp [keepMaxStr, h, strLe, this]
  | false => simp [keepMaxStr, h, strLe_refl]

theorem strLe_keepMaxStr_right (a w : String) : strLe w (keepMaxStr a w) = true := by
  cases h : strLt a w with
  | true => simp [keepMaxStr, h, strLe_refl]
  | false => simp [keepMaxStr, h, strLe, Bool.not_eq_true', strLt_irrefl]
  -- when `strLt a w = false`, `keepMaxStr a w = a` and `strLe w a = ! strLt a w`

theorem foldl_keepMaxStr_mem (vs : List String) :
    ∀ a : String, vs.foldl keepMaxStr a = a ∨ vs.foldl keepMaxStr a ∈ vs := by
  induction vs with
  | nil => intro a; exact Or.inl rfl
  | cons w vs ih =>
    intro a
    have hcons : (w :: vs).foldl keepMaxStr a = vs.foldl keepMaxStr (keepMaxStr a w) := rfl
    rcases ih (keepMaxStr a w) with h | h
    · rw [hcons, h]
      cases hlt : strLt a w with
      | true =>
        right
        simp [keepMaxStr, hlt]
      | false =>
        left
        simp [keepMaxStr, hlt]
    · right
      rw [hcons]
      exact List.mem_cons_of_mem _ h

theorem strLe_foldl_keepMaxStr (vs : List String) :
    ∀ a : String, strLe a (vs.foldl keepMaxStr a) = true ∧
      ∀ u ∈ vs, strLe u (vs.foldl keepMaxStr a) = true := by
  induction vs with
  | nil =>
    intro a
    exact ⟨strLe_refl a, by simp⟩
  | cons w vs ih =>
    intro a
    have hstep := ih (keepMaxStr a w)
    constructor
    · exact strLe_trans (strLe_keepMaxStr_left a w) hstep.1
    · intro u hu
      rcases List.mem_cons.mp hu with rfl | hu'
      · exact strLe_trans (strLe_keepMaxStr_right a u) hstep.1
      · exact hstep.2 u hu'

/-- The drain loop, characterised: running it from accumulator `a` and output
`out` either crashes where a drained row lacks the update-time field, or
returns the fold of the running max over the update-times of all drained rows
together with all drained rows normalized and appended to `out`. -/
theorem stream_export_loop_characterization (f : String) :
    ∀ (pages : List Page) (a : Option String) (out : List (List (String × Option String))),
    stream_export_loop f pages a out =
      match rowVals f (drainedRows pages) with
      | none => none
      | some vs => some (foldMaxStr a vs, out ++ (drainedRows pages).map transform_export_row) := by
  intro pages
  induction pages with
  | nil =>
    intro a out
    simp [stream_export_loop, drainedRows, rowVals, foldMaxStr]
  | cons page rest ih =>
    intro a out
    cases hit : page.items with
    | none =>
      have hrows : pageRows page = [] := by simp [pageRows, hit]
      cases hm : page.hasMore with
      | true =>
        simp only [stream_export_loop, hit, hm, if_true, drainedRows, hrows, List.nil_append]
        exact ih a out
      | false =>
        simp [stream_export_loop, hit, hm, drainedRows, hrows, rowVals, foldMaxStr]
    | some items =>
      cases hempty : items.isEmpty with
      | true =>
        have hrows : pageRows page = [] := by simp [pageRows, hit, hempty]
        cases hm : page.hasMore with
        | true =>
          simp only [stream_export_loop, hit, hempty, if_true, hm, drainedRows, hrows,
            List.nil_append]
          exact ih a out
        | false =>
          simp [stream_export_loop, hit, hempty, hm, drainedRows, hrows, rowVals, foldMaxStr]
      | false =>
        have hrows : pageRows page = items := by simp [pageRows, hit, hempty]
        cases hv : rowVals f items with
        | none =>
          have hpm : pageMaxUpdatedAt items f = none := by simp [pageMaxUpdatedAt, hv]
          cases hm : page.hasMore with
          | true =>
            simp only [stream_export_loop, hit, hempty, Bool.false_eq_true, if_false, hpm, hm,
              if_true, drainedRows, hrows]
            rw [rowVals_append]
            simp [hv]
          | false =>
            simp only [stream_export_loop, hit, hempty, Bool.false_eq_true, if_false, hpm, hm,
              drainedRows, hrows]
            simp [hv]
        | some vs =>
          have hvs_ne : vs ≠ [] := by
            intro hnil
            subst hnil
            have := rowVals_length f hv
            cases hits : items with
            | nil => rw [hits] at hempty; simp [List.isEmpty] at hempty
            | cons r rs => rw [hits] at this; simp at this
          obtain ⟨v, vs', rfl⟩ : ∃ v vs', vs = v :: vs' := by
            cases vs with
            | nil => exact absurd rfl hvs_ne
            | cons v vs' => exact ⟨v, vs', rfl⟩
          have hpm : pageMaxUpdatedAt items f = some (vs'.foldl keepMaxStr v) := by
            simp [pageMaxUpdatedAt, hv, listMaxStr]
          have hfold : optMaxStr a (vs'.foldl keepMaxStr v) = foldMaxStr a (v :: vs') := by
            rw [optMaxStr_foldl]
            rfl
          cases hm : page.hasMore with
          | true =>
            simp only [stream_export_loop, hit, hempty, Bool.false_eq_true, if_false, hpm, hm,
              if_true, drainedRows, hrows]
            rw [ih, rowVals_append]
            simp only [hv]
            cases hrest : rowVals f (drainedRows rest) with
            | none => simp
            | some ws =>
              simp only
              rw [hfold, foldMaxStr_append]
              simp [foldMaxStr_append, List.map_append, List.append_assoc]
          | false =>
            simp only [stream_export_loop, hit, hempty, Bool.false_eq_true, if_false, hpm, hm,
              drainedRows, hrows]
            simp only [hv]
            rw [hfold]

theorem drainedRows_eq_nil : ∀ pages : List Page,
    (∀ p ∈ pages, p.items = none ∨ p.items = some []) → drainedRows pages = [] := by
  intro pages
  induction pages with
  | nil => intro _; rfl
  | cons page rest ih =>
    intro h
    have hp := h page (List.mem_cons_self page rest)
    have hrows : pageRows page = [] := by
      rcases hp with h' | h' <;> simp [pageRows, h']
    have hrest := ih (fun p hp' => h p (List.mem_cons_of_mem _ hp'))
    cases hm : page.hasMore <;> simp [drainedRows, hm, hrows, hrest]

theorem stream_export_of_truthy_max (state : TapState) (stream_name f : String)
    (pages : List Page) (out : List (List (String × Option String))) (v : String)
    (hloop : stream_export_loop f pages none [] = some (some v, out)) (hv : v ≠ "") :
    stream_export state stream_name f pages =
      some (write_bookmark state stream_name v, out) := by
  unfold stream_export
  rw [hloop]
  simp [hv]

theorem stream_export_of_falsy_max (state : TapState) (stream_name f : String)
    (pages : List Page) (out : List (List (String × Option String))) (mu : Option String)
    (hloop : stream_export_loop f pages none [] = some (mu, out))
    (hmu : mu = none ∨ mu = some "") :
    stream_export state stream_name f pages = some (state, out) := by
  unfold stream_export
  rw [hloop]
  rcases hmu with rfl | rfl
  · rfl
  · simp

/-- C4: whenever the drain loop has seen at least one row and the run-wide
maximum `v` of the update-time field is truthy, `stream_export` writes `v` —
the maximum over the rows of all drained pages, not of the last page — as the
stream's bookmark, and emits every drained row normalized. -/
theorem stream_export_writes_run_max (state : TapState) (stream_name f : String)
    (pages : List Page) (vs : List String) (v : String)
    (hvals : rowVals f (drainedRows pages) = some vs)
    (hmax : listMaxStr vs = some v) (hv : v ≠ "") :
    stream_export state stream_name f pages =
      some (write_bookmark state stream_name v,
        (drainedRows pages).map transform_export_row) ∧
    v ∈ vs ∧ (∀ u ∈ vs, strLe u v = true) := by
  have hloop := stream_export_loop_characterization f pages none []
  rw [hvals] at hloop
  simp only [List.nil_append] at hloop
  have hfold : foldMaxStr none vs = some v := by rw [foldMaxStr_none, hmax]
  rw [hfold] at hloop
  refine ⟨?_, ?_⟩
  · exact stream_export_of_truthy_max state stream_name f pages _ v hloop hv
  · cases vs with
    | nil => simp [listMaxStr] at hmax
    | cons v₀ vs' =>
      simp only [listMaxStr, Option.some.injEq] at hmax
      subst hmax
      constructor
      · rcases foldl_keepMaxStr_mem vs' v₀ with h | h
        · rw [h]; exact List.mem_cons_self _ _
        · exact List.mem_cons_of_mem _ h
      · intro u hu
        rcases List.mem_cons.mp hu with rfl | hu'
        · exact (strLe_foldl_keepMaxStr vs' u).1
        · exact (strLe_foldl_keepMaxStr vs' v₀).2 u hu'

def drainExamplePages : List Page :=
  [⟨true, some [[("UpdatedAt", "10")], [("UpdatedAt", "20")]]⟩,
   ⟨false, some [[("UpdatedAt", "15")]]⟩]

/-- Witness for `stream_export_writes_run_max`: update-times 10, 20, 15 in
drain order across two pages produce final bookmark 20. -/
theorem stream_export_writes_run_max_witness :
    stream_export ⟨none, none⟩ "contacts" "UpdatedAt" drainExamplePages =
      some (write_bookmark ⟨none, none⟩ "contacts" "20",
        (drainedRows drainExamplePages).map transform_export_row) ∧
    "20" ∈ ["10", "20", "15"] :=
  ⟨(stream_export_writes_run_max ⟨none, none⟩ "contacts" "UpdatedAt" drainExamplePages
      ["10", "20", "15"] "20" (by decide) (by decide) (by decide)).1,
   (stream_export_writes_run_max ⟨none, none⟩ "contacts" "UpdatedAt" drainExamplePages
      ["10", "20", "15"] "20" (by decide) (by decide) (by decide)).2.1⟩

/-- C5: a drain that returns zero rows across all its pages leaves the whole
run state (in particular the `bookmarks` mapping) exactly as it was, and
emits nothing. -/
theorem stream_export_empty_drain (state : TapState) (stream_name f : String)
    (pages : List Page) (h : ∀ p ∈ pages, p.items = none ∨ p.items = some []) :
    stream_export state stream_name f pages = some (state, []) := by
  have hdr : drainedRows pages = [] := drainedRows_eq_nil pages h
  have hloop := stream_export_loop_characterization f pages none []
  rw [hdr] at hloop
  simp only [rowVals, List.map_nil, List.append_nil] at hloop
  unfold stream_export
  rw [hloop]
  rfl

/-- Witness for `stream_export_empty_drain` on an empty two-page drain over a
state that already holds a bookmark. -/
theorem stream_export_empty_drain_witness :
    stream_export ⟨some "contacts", some [("visitors", "2020-01-01T00:00:00Z")]⟩
        "contacts" "UpdatedAt" [⟨true, none⟩, ⟨false, some []⟩] =
      some (⟨some "contacts", some [("visitors", "2020-01-01T00:00:00Z")]⟩, []) :=
  stream_export_empty_drain _ "contacts" "UpdatedAt" _ (by decide)

theorem lookupKey_transform_export_row (r : Row) (f : String) :
    lookupKey (transform_export_row r) f =
      (rowGet r f).map (fun v => if v = "" then none else some v) := by
  induction r with
  | nil => rfl
  | cons p r ih =>
    obtain ⟨k, v⟩ := p
    show lookupKey ((k, if v = "" then none else some v) :: transform_export_row r) f = _
    by_cases hk : k = f
    · simp [lookupKey, rowGet, hk]
    · simp only [lookupKey, rowGet, hk, if_false]
      exact ih

theorem rowVals_of_all_blank (f : String) : ∀ rows : List Row,
    (∀ r ∈ rows, rowGet r f = some "") →
    rowVals f rows = some (rows.map fun _ => "") := by
  intro rows
  induction rows with
  | nil => intro _; rfl
  | cons r rs ih =>
    intro h
    have hr := h r (List.mem_cons_self r rs)
    have hrest := ih (fun r' hr' => h r' (List.mem_cons_of_mem _ hr'))
    simp [rowVals, hr, hrest]

theorem foldl_keepMaxStr_all_blank : ∀ l : List String,
    (∀ u ∈ l, u = "") → l.foldl keepMaxStr "" = "" := by
  intro l
  induction l with
  | nil => intro _; rfl
  | cons u l ih =>
    intro h
    have hu := h u (List.mem_cons_self u l)
    subst hu
    have : keepMaxStr "" "" = "" := by simp [keepMaxStr, strLt_irrefl]
    show l.foldl keepMaxStr (keepMaxStr "" "") = ""
    rw [this]
    exact ih (fun x hx => h x (List.mem_cons_of_mem _ hx))

theorem foldMaxStr_blank_cases : ∀ l : List String, (∀ u ∈ l, u = "") →
    foldMaxStr none l = none ∨ foldMaxStr none l = some "" := by
  intro l
  cases l with
  | nil => intro _; exact Or.inl rfl
  | cons v l =>
    intro h
    right
    have hv := h v (List.mem_cons_self v l)
    subst hv
    show foldMaxStr (optMaxStr none "") l = some ""
    simp only [optMaxStr, foldMaxStr_some]
    rw [foldl_keepMaxStr_all_blank l (fun x hx => h x (List.mem_cons_of_mem _ hx))]

/-- C10: the running maximum is taken over the raw, pre-normalization
update-time values and the bookmark is written only when that maximum is
truthy; hence a drain whose rows all carry the empty string in the
update-time field emits every record (that field normalized to null) while
leaving the state, and so the stored watermark, untouched. -/
theorem stream_export_blank_update_times (state : TapState) (stream_name f : String)
    (pages : List Page) (h : ∀ r ∈ drainedRows pages, rowGet r f = some "") :
    stream_export state stream_name f pages =
      some (state, (drainedRows pages).map transform_export_row) ∧
    ∀ r ∈ drainedRows pages, lookupKey (transform_export_row r) f = some none := by
  constructor
  · have hvals := rowVals_of_all_blank f (drainedRows pages) h
    have hloop := stream_export_loop_characterization f pages none []
    rw [hvals] at hloop
    simp only [List.nil_append] at hloop
    have hmu := foldMaxStr_blank_cases ((drainedRows pages).map fun _ => "")
      (fun u hu => by rcases List.mem_map.mp hu with ⟨x, _, rfl⟩; rfl)
    exact stream_export_of_falsy_max state stream_name f pages _ _ hloop hmu
  · intro r hr
    rw [lookupKey_transform_export_row, h r hr]
    simp

def blankExamplePages : List Page :=
  [⟨false, some [[("ContactId", "7"), ("CreatedAt", "")],
                 [("ContactId", ""), ("CreatedAt", "")]]⟩]

/-- Witness for `stream_export_blank_update_times`: two rows whose `CreatedAt`
is the empty string are both emitted (with that field null) and no bookmark
is written. -/
theorem stream_export_blank_update_times_witness :
    stream_export ⟨none, none⟩ "activity_email_open" "CreatedAt" blankExamplePages =
      some (⟨none, none⟩, (drainedRows blankExamplePages).map transform_export_row) ∧
    lookupKey (transform_export_row [("ContactId", "7"), ("CreatedAt", "")]) "CreatedAt" =
      some none :=
  ⟨(stream_export_blank_update_times ⟨none, none⟩ "activity_email_open" "CreatedAt"
      blankExamplePages (by decide)).1,
   (stream_export_blank_update_times ⟨none, none⟩ "activity_email_open" "CreatedAt"
      blankExamplePages (by decide)).2
     [("ContactId", "7"), ("CreatedAt", "")] (by decide)⟩

/-! The poll phase of `sync_bulk_obj` (sync.py lines 160-188).  Each element
of the input list is one sync-status poll response: the `status` string the
server returned, paired with the elapsed wall-clock seconds
`time.time() - start_time` at the moment the loop examines that response.
A `none` result means the loop was still polling when the modelled response
sequence ran out. -/

inductive PollOutcome where
  | drained : PollOutcome
  | jobFailed : String → PollOutcome
  | deadlineExceeded : String → PollOutcome
deriving DecidableEq

/-- The job-failed message of the poll loop, with the stream name and the
reported status substituted. -/
def export_failed_message (stream_name status : String) : String :=
  stream_name ++ " - status: " ++ status ++ ", exporting failed"

/-- The deadline-exceeded message of the poll loop, with the stream name and
`MAX_RETRY_ELAPSED_TIME` substituted. -/
def export_deadline_message (stream_name : String) : String :=
  stream_name ++ " - export deadline exceeded (3600 secs)"

/-- Embeds the `while True` poll loop: `success`/`active` break to the drain,
any other non-`pending` status raises naming the stream and status, a
`pending` seen after more than `MAX_RETRY_ELAPSED_TIME` seconds raises the
deadline error, and otherwise the loop sleeps and polls again. -/
def poll_sync_status (stream_name : String) : List (String × Nat) → Option PollOutcome
  | [] => none
  | (status, elapsed) :: rest =>
    if status = "success" ∨ status = "active" then some PollOutcome.drained
    else if status ≠ "pending" then
      some (PollOutcome.jobFailed (export_failed_message stream_name status))
    else if elapsed > MAX_RETRY_ELAPSED_TIME then
      some (PollOutcome.deadlineExceeded (export_deadline_message stream_name))
    else poll_sync_status stream_name rest

/-- C6 counterexample: on the poll sequence `pending` (fetched 3601 s after
submission) then `success`, the claim's condition "some fetched status is
success/active with every earlier status pending" holds, yet the loop does
not exit normally to the drain: it raises the deadline error at the first
response. -/
theorem poll_deadline_preempts_claimed_exit :
    (([("pending", 3601), ("success", 3602)] : List (String × Nat)).map Prod.fst =
      ["pending", "success"]) ∧
    poll_sync_status "contacts" [("pending", 3601), ("success", 3602)] =
      some (PollOutcome.deadlineExceeded (export_deadline_message "contacts")) ∧
    poll_sync_status "contacts" [("pending", 3601), ("success", 3602)] ≠
      some PollOutcome.drained := by
  refine ⟨rfl, by decide, by decide⟩

theorem poll_step_ok (stream_name st : String) (e : Nat) (rest : List (String × Nat))
    (hsa : st = "success" ∨ st = "active") :
    poll_sync_status stream_name ((st, e) :: rest) = some PollOutcome.drained := by
  simp [poll_sync_status, hsa]

theorem poll_step_pending (stream_name : String) (e : Nat) (rest : List (String × Nat))
    (hye : ¬ e > MAX_RETRY_ELAPSED_TIME) :
    poll_sync_status stream_name (("pending", e) :: rest) =
      poll_sync_status stream_name rest := by
  simp [poll_sync_status, hye]

theorem poll_step_failed (stream_name st : String) (e : Nat) (rest : List (String × Nat))
    (hsucc : st ≠ "success") (hact : st ≠ "active") (hpend : st ≠ "pending") :
    poll_sync_status stream_name ((st, e) :: rest) =
      some (PollOutcome.jobFailed (export_failed_message stream_name st)) := by
  have hsa : ¬(st = "success" ∨ st = "active") := by
    rintro (h | h)
    · exact hsucc h
    · exact hact h
  simp [poll_sync_status, hsa, hpend]

theorem poll_step_deadline (stream_name : String) (e : Nat) (rest : List (String × Nat))
    (hdl : e > MAX_RETRY_ELAPSED_TIME) :
    poll_sync_status stream_name (("pending", e) :: rest) =
      some (PollOutcome.deadlineExceeded (export_deadline_message stream_name)) := by
  simp [poll_sync_status, hdl]

/-- C6 (amended): the loop exits normally to the drain iff some fetched
status is `success` or `active` and every earlier fetch was a `pending`
within the 3600-second deadline; a non-`pending`/`success`/`active` status
fetched after such earlier responses raises the job-failed error naming the stream
and the status; and a `pending` fetched after more than 3600 s raises the
deadline error naming the stream. -/
theorem poll_sync_status_characterization (stream_name : String) :
    (∀ polls : List (String × Nat),
      poll_sync_status stream_name polls = some PollOutcome.drained ↔
      ∃ pre st e post, polls = pre ++ (st, e) :: post ∧
        (st = "success" ∨ st = "active") ∧
        ∀ x ∈ pre, x.1 = "pending" ∧ x.2 ≤ MAX_RETRY_ELAPSED_TIME) ∧
    (∀ (pre : List (String × Nat)) (st : String) (e : Nat) (post : List (String × Nat)),
      (∀ x ∈ pre, x.1 = "pending" ∧ x.2 ≤ MAX_RETRY_ELAPSED_TIME) →
      st ≠ "success" → st ≠ "active" → st ≠ "pending" →
      poll_sync_status stream_name (pre ++ (st, e) :: post) =
        some (PollOutcome.jobFailed (export_failed_message stream_name st))) ∧
    (∀ (pre : List (String × Nat)) (e : Nat) (post : List (String × Nat)),
      (∀ x ∈ pre, x.1 = "pending" ∧ x.2 ≤ MAX_RETRY_ELAPSED_TIME) →
      e > MAX_RETRY_ELAPSED_TIME →
      poll_sync_status stream_name (pre ++ ("pending", e) :: post) =
        some (PollOutcome.deadlineExceeded (export_deadline_message stream_name))) := by
  refine ⟨?_, ?_, ?_⟩
  · intro polls
    induction polls with
    | nil =>
      constructor
      · intro h
        simp [poll_sync_status] at h
      · rintro ⟨pre, st, e, post, hEq, -, -⟩
        cases pre <;> simp at hEq
    | cons hd rest ih =>
      obtain ⟨st, e⟩ := hd
      by_cases hsa : st = "success" ∨ st = "active"
      · rw [poll_step_ok stream_name st e rest hsa]
        constructor
        · intro _
          exact ⟨[], st, e, rest, rfl, hsa, by simp⟩
        · intro _
          rfl
      · by_cases hpend : st = "pending"
        · subst hpend
          by_cases hdl : e > MAX_RETRY_ELAPSED_TIME
          · rw [poll_step_deadline stream_name e rest hdl]
            constructor
            · intro h
              simp at h
            · rintro ⟨pre, st', e', post, hEq, hsa', hpre⟩
              exfalso
              cases pre with
              | nil =>
                simp only [List.nil_append, List.cons.injEq, Prod.mk.injEq] at hEq
                obtain ⟨⟨h1, -⟩, -⟩ := hEq
                subst h1
                rcases hsa' with h' | h' <;> simp at h'
              | cons y pre' =>
                simp only [List.cons_append, List.cons.injEq] at hEq
                have hy := hpre y (List.mem_cons_self _ _)
                rw [← hEq.1] at hy
                exact absurd hdl (Nat.not_lt.mpr hy.2)
          · rw [poll_step_pending stream_name e rest hdl, ih]
            constructor
            · rintro ⟨pre, st', e', post, hEq, hsa', hpre⟩
              refine ⟨("pending", e) :: pre, st', e', post, by simp [hEq], hsa', ?_⟩
              intro x hx
              rcases List.mem_cons.mp hx with rfl | hx'
              · exact ⟨rfl, Nat.not_lt.mp hdl⟩
              · exact hpre x hx'
            · rintro ⟨pre, st', e', post, hEq, hsa', hpre⟩
              cases pre with
              | nil =>
                simp only [List.nil_append, List.cons.injEq, Prod.mk.injEq] at hEq
                obtain ⟨⟨h1, -⟩, -⟩ := hEq
                subst h1
                rcases hsa' with h' | h' <;> simp at h'
              | cons y pre' =>
                simp only [List.cons_append, List.cons.injEq] at hEq
                exact ⟨pre', st', e', post, hEq.2, hsa',
                  fun x hx => hpre x (List.mem_cons_of_mem _ hx)⟩
        · have hsucc : st ≠ "success" := fun h => hsa (Or.inl h)
          have hact : st ≠ "active" := fun h => hsa (Or.inr h)
          rw [poll_step_failed stream_name st e rest hsucc hact hpend]
          constructor
          · intro h
            simp at h
          · rintro ⟨pre, st', e', post, hEq, hsa', hpre⟩
            exfalso
            cases pre with
            | nil =>
              simp only [List.nil_append, List.cons.injEq, Prod.mk.injEq] at hEq
              obtain ⟨⟨h1, -⟩, -⟩ := hEq
              subst h1
              exact hsa hsa'
            | cons y pre' =>
              simp only [List.cons_append, List.cons.injEq] at hEq
              have hy := hpre y (List.mem_cons_self _ _)
              rw [← hEq.1] at hy
              exact hpend hy.1
  · intro pre st e post hpre hsucc hact hpend
    induction pre with
    | nil => exact poll_step_failed stream_name st e post hsucc hact hpend
    | cons y pre' ih =>
      obtain ⟨ys, ye⟩ := y
      have hy := hpre (ys, ye) (List.mem_cons_self _ _)
      have hys : ys = "pending" := hy.1
      subst hys
      rw [List.cons_append,
        poll_step_pending stream_name ye _ (Nat.not_lt.mpr hy.2)]
      exact ih (fun x hx => hpre x (List.mem_cons_of_mem _ hx))
  · intro pre e post hpre hdl
    induction pre with
    | nil => exact poll_step_deadline stream_name e post hdl
    | cons y pre' ih =>
      obtain ⟨ys, ye⟩ := y
      have hy := hpre (ys, ye) (List.mem_cons_self _ _)
      have hys : ys = "pending" := hy.1
      subst hys
      rw [List.cons_append,
        poll_step_pending stream_name ye _ (Nat.not_lt.mpr hy.2)]
      exact ih (fun x hx => hpre x (List.mem_cons_of_mem _ hx))

/-- Witness for `poll_sync_status_characterization` on three concrete poll
sequences: normal exit, a `failed` status, and a late `pending`. -/
theorem poll_sync_status_characterization_witness :
    poll_sync_status "contacts" [("pending", 2), ("success", 4)] =
      some PollOutcome.drained ∧
    poll_sync_status "contacts" [("pending", 2), ("failed", 4)] =
      some (PollOutcome.jobFailed (export_failed_message "contacts" "failed")) ∧
    poll_sync_status "contacts" [("pending", 2), ("pending", 3601)] =
      some (PollOutcome.deadlineExceeded (export_deadline_message "contacts")) :=
  ⟨((poll_sync_status_characterization "contacts").1
      [("pending", 2), ("success", 4)]).mpr
      ⟨[("pending", 2)], "success", 4, [], rfl, Or.inl rfl, by decide⟩,
   (poll_sync_status_characterization "contacts").2.1 [("pending", 2)] "failed" 4 []
      (by decide) (by decide) (by decide) (by decide),
   (poll_sync_status_characterization "contacts").2.2 [("pending", 2)] 3601 []
      (by decide) (by decide)⟩

/-! The field-selection loop of `sync_bulk_obj` (sync.py lines 104-112).  One
catalog metadata entry carries a breadcrumb, the optional `selected` and
`inclusion` flags (their absence modelled as `none`, with the source's
`.get` defaults), and the optional `tap-eloqua.statement` expression (whose
absence in a taken branch is a KeyError, modelled as a `none` result). -/

structure FieldMeta where
  breadcrumb : List String
  selected : Option Bool
  inclusion : Option String
  statement : Option String
deriving DecidableEq

/-- Embeds the `for meta in stream.metadata` loop building the `fields` dict:
an empty breadcrumb is the root entry (captured as `obj_meta`, no effect on
`fields`); a field entry is kept iff `selected` (default True) is truthy or
`inclusion` (default "available") equals "automatic", in which case
`fields[breadcrumb[1]] = metadata['tap-eloqua.statement']`. -/
def build_export_fields : List FieldMeta → List (String × String) → Option (List (String × String))
  | [], fields => some fields
  | meta :: rest, fields =>
    if meta.breadcrumb = [] then build_export_fields rest fields
    else if meta.selected.getD true = true ∨ meta.inclusion.getD "available" = "automatic" then
      match meta.breadcrumb.get? 1, meta.statement with
      | some field_name, some stmt => build_export_fields rest (setKey fields field_name stmt)
      | _, _ => none
    else build_export_fields rest fields

theorem lookupKey_setKey_self {α : Type} (d : List (String × α)) (k : String) (v : α) :
    lookupKey (setKey d k v) k = some v := by
  induction d with
  | nil => simp [setKey, lookupKey]
  | cons p d ih =>
    obtain ⟨k', v'⟩ := p
    by_cases hk : k' = k
    · simp [setKey, hk, lookupKey]
    · simp [setKey, hk, lookupKey, ih]

theorem lookupKey_setKey_ne {α : Type} (d : List (String × α)) (k k' : String) (v : α)
    (h : k ≠ k') : lookupKey (setKey d k v) k' = lookupKey d k' := by
  induction d with
  | nil => simp [setKey, lookupKey, h]
  | cons p d ih =>
    obtain ⟨k₀, v₀⟩ := p
    by_cases hk : k₀ = k
    · subst hk
      simp [setKey, lookupKey, h]
    · simp [setKey, hk, lookupKey, ih]

theorem build_export_fields_preserves (fname stmt : String) :
    ∀ (ms : List FieldMeta) (acc fields : List (String × String)),
    build_export_fields ms acc = some fields →
    (∀ m' ∈ ms, m'.breadcrumb.get? 1 = some fname → m'.statement = some stmt) →
    lookupKey acc fname = some stmt →
    lookupKey fields fname = some stmt := by
  intro ms
  induction ms with
  | nil =>
    intro acc fields hb _ hacc
    cases hb
    exact hacc
  | cons m0 rest ih =>
    intro acc fields hb hkey hacc
    by_cases hbc : m0.breadcrumb = []
    · simp only [build_export_fields, if_pos hbc] at hb
      exact ih acc fields hb (fun x hx hx' => hkey x (List.mem_cons_of_mem _ hx) hx') hacc
    · simp only [build_export_fields, if_neg hbc] at hb
      by_cases hsel : m0.selected.getD true = true ∨ m0.inclusion.getD "available" = "automatic"
      · rw [if_pos hsel] at hb
        cases hfn : m0.breadcrumb.get? 1 with
        | none => rw [hfn] at hb; cases m0.statement <;> cases hb
        | some fn =>
          cases hst : m0.statement with
          | none => rw [hfn, hst] at hb; cases hb
          | some st =>
            rw [hfn, hst] at hb
            by_cases hfneq : fn = fname
            · subst hfneq
              have : st = stmt := by
                have h' := hkey m0 (List.mem_cons_self _ _) hfn
                rw [hst] at h'
                exact Option.some.inj h'
              subst this
              exact ih _ fields hb
                (fun x hx hx' => hkey x (List.mem_cons_of_mem _ hx) hx')
                (lookupKey_setKey_self acc fn st)
            · refine ih _ fields hb
                (fun x hx hx' => hkey x (List.mem_cons_of_mem _ hx) hx') ?_
              rw [lookupKey_setKey_ne acc fn fname st hfneq]
              exact hacc
      · rw [if_neg hsel] at hb
        exact ih acc fields hb (fun x hx hx' => hkey x (List.mem_cons_of_mem _ hx) hx') hacc

theorem build_export_fields_automatic_aux (fname stmt : String) (m : FieldMeta)
    (hne : m.breadcrumb ≠ []) (hf : m.breadcrumb.get? 1 = some fname)
    (hauto : m.inclusion = some "automatic") :
    ∀ (ms : List FieldMeta) (acc fields : List (String × String)),
    build_export_fields ms acc = some fields → m ∈ ms →
    (∀ m' ∈ ms, m'.breadcrumb.get? 1 = some fname → m'.statement = some stmt) →
    lookupKey fields fname = some stmt := by
  intro ms
  induction ms with
  | nil =>
    intro acc fields _ hm _
    exact absurd hm (List.not_mem_nil m)
  | cons m0 rest ih =>
    intro acc fields hb hm hkey
    rcases List.mem_cons.mp hm with rfl | hmtail
    · have hstmt : m.statement = some stmt := hkey m (List.mem_cons_self _ _) hf
      have hcond : m.selected.getD true = true ∨ m.inclusion.getD "available" = "automatic" :=
        Or.inr (by rw [hauto]; rfl)
      simp only [build_export_fields, if_neg hne, if_pos hcond] at hb
      rw [hf, hstmt] at hb
      exact build_export_fields_preserves fname stmt rest _ fields hb
        (fun x hx hx' => hkey x (List.mem_cons_of_mem _ hx) hx')
        (lookupKey_setKey_self acc fname stmt)
    · by_cases hbc : m0.breadcrumb = []
      · simp only [build_export_fields, if_pos hbc] at hb
        exact ih acc fields hb hmtail (fun x hx hx' => hkey x (List.mem_cons_of_mem _ hx) hx')
      · simp only [build_export_fields, if_neg hbc] at hb
        by_cases hsel : m0.selected.getD true = true ∨ m0.inclusion.getD "available" = "automatic"
        · rw [if_pos hsel] at hb
          cases hfn : m0.breadcrumb.get? 1 with
          | none => rw [hfn] at hb; cases m0.statement <;> cases hb
          | some fn =>
            cases hst : m0.statement with
            | none => rw [hfn, hst] at hb; cases hb
            | some st =>
              rw [hfn, hst] at hb
              exact ih _ fields hb hmtail
                (fun x hx hx' => hkey x (List.mem_cons_of_mem _ hx) hx')
        · rw [if_neg hsel] at hb
          exact ih acc fields hb hmtail (fun x hx hx' => hkey x (List.mem_cons_of_mem _ hx) hx')

/-- C8: every field whose catalog metadata marks inclusion as "automatic"
ends up in the export field mapping bound to its `tap-eloqua.statement`
expression, whatever its `selected` flag says (in particular when it is
explicitly false); deselection can only drop fields that are not automatic. -/
theorem automatic_fields_always_exported (ms : List FieldMeta)
    (fields : List (String × String)) (m : FieldMeta) (fname stmt : String)
    (hb : build_export_fields ms [] = some fields) (hm : m ∈ ms)
    (hne : m.breadcrumb ≠ []) (hf : m.breadcrumb.get? 1 = some fname)
    (hauto : m.inclusion = some "automatic")
    (hkey : ∀ m' ∈ ms, m'.breadcrumb.get? 1 = some fname → m'.statement = some stmt) :
    lookupKey fields fname = some stmt :=
  build_export_fields_automatic_aux fname stmt m hne hf hauto ms [] fields hb hm hkey

def fieldMetaExample : List FieldMeta :=
  [⟨[], none, none, none⟩,
   ⟨["properties", "Id"], some false, some "automatic", some "stmtContactId"⟩,
   ⟨["properties", "C_EmailAddress"], some true, some "available", some "stmtEmail"⟩]

/-- Witness for `automatic_fields_always_exported`: the `Id` field is marked
automatic and explicitly deselected, yet it is exported with its statement. -/
theorem automatic_fields_always_exported_witness :
    lookupKey [("Id", "stmtContactId"), ("C_EmailAddress", "stmtEmail")] "Id" =
      some "stmtContactId" :=
  automatic_fields_always_exported fieldMetaExample
    [("Id", "stmtContactId"), ("C_EmailAddress", "stmtEmail")]
    ⟨["properties", "Id"], some false, some "automatic", some "stmtContactId"⟩
    "Id" "stmtContactId" (by decide) (by decide) (by decide) (by decide) (by decide)
    (by decide)

/-! The orchestrator (`get_selected_streams`, `get_custom_obj_streams`,
`should_sync_stream`, `update_current_stream`, `sync`; sync.py lines
333-415).  A catalog stream is modelled by its `tap_stream_id`, its
root-metadata `selected` flag (`none` when the root metadata or the key is
absent; the source requires the value to be literally `True`), and its root
`tap-eloqua.id` value. -/

structure CatStream where
  tap_stream_id : String
  rootSelected : Option Bool
  eloquaId : Option String
deriving DecidableEq

/-- Embeds `get_selected_streams`: the ids of streams whose root metadata has
`selected is True`.  The Python `set` is modelled by deduplication keeping
first occurrences; only membership is consumed downstream. -/
def get_selected_streams (catalog : List CatStream) : List String :=
  ((catalog.filter (fun s => s.rootSelected = some true)).map
    (fun s => s.tap_stream_id)).eraseDups

/-- Embeds `get_custom_obj_streams`: the ids of streams whose root metadata
carries a truthy `tap-eloqua.id`. -/
def get_custom_obj_streams (catalog : List CatStream) : List String :=
  ((catalog.filter (fun s => s.eloquaId.getD "" ≠ "")).map
    (fun s => s.tap_stream_id)).eraseDups

/-- Embeds `should_sync_stream` (sync.py lines 346-350). -/
def should_sync_stream (last_stream : Option String) (selected_streams : List String)
    (stream_name : String) : Bool :=
  if last_stream = some stream_name ∨
      (last_stream = none ∧ stream_name ∈ selected_streams) then true
  else false

theorem should_sync_stream_eq_true (last_stream : Option String)
    (selected_streams : List String) (stream_name : String) :
    should_sync_stream last_stream selected_streams stream_name = true ↔
      (last_stream = some stream_name ∨
        (last_stream = none ∧ stream_name ∈ selected_streams)) := by
  constructor
  · intro ht
    by_cases h : last_stream = some stream_name ∨
        (last_stream = none ∧ stream_name ∈ selected_streams)
    · exact h
    · unfold should_sync_stream at ht
      rw [if_neg h] at ht
      cases ht
  · intro h
    unfold should_sync_stream
    exact if_pos h

/-- The plan order the `sync` function walks: the built-in bulk objects, then
the activity-type streams, then the catalog's custom-object streams, then
the four trailing paged entities.  `built_in_bulk_objects` and
`activity_streams` stand for `BUILT_IN_BULK_OBJECTS` and the
`activity_type_to_stream` images of `ACTIVITY_TYPES`, both imported from
`tap_eloqua.schema`. -/
def sync_entity_order (built_in_bulk_objects activity_streams : List String)
    (catalog : List CatStream) : List String :=
  built_in_bulk_objects ++ activity_streams ++ get_custom_obj_streams catalog ++
    ["visitors", "campaigns", "emails", "forms"]

/-- Embeds the dispatch structure of `sync` (sync.py lines 361-415): when no
stream is selected the run returns at once; otherwise `last_stream` is read
once from the state (and never reassigned by the source), and each plan
entity is dispatched iff `should_sync_stream` holds for it.  The value is
the list of entity names actually synced, in order. -/
def sync_streams_run (built_in_bulk_objects activity_streams : List String)
    (catalog : List CatStream) (last_stream : Option String) : List String :=
  if (get_selected_streams catalog).isEmpty then []
  else
    (sync_entity_order built_in_bulk_objects activity_streams catalog).filter
      (fun stream_name =>
        should_sync_stream last_stream (get_selected_streams catalog) stream_name)

/-- C2: evaluating the orchestrator at a resumable state shows the claim
false in the code: with plan accounts, contacts, ... all selected and
`current_stream = "accounts"`, the run re-syncs `accounts` and then skips
`contacts` (and everything else), because `last_stream` is compared
unchanged against every later entity. -/
theorem resume_abandons_rest_of_plan :
    sync_streams_run ["accounts", "contacts"] []
        [⟨"accounts", some true, none⟩, ⟨"contacts", some true, none⟩]
        (some "accounts") = ["accounts"] ∧
    should_sync_stream (some "accounts") ["accounts", "contacts"] "contacts" = false := by
  exact ⟨by decide, by decide⟩

/-- C3 counterexample: with `current_stream = "contacts"` but an all-deselected
catalog, the early `if not selected_streams: return` fires and the run syncs
nothing at all — in particular not the interrupted entity `contacts`, which
the claim (quantified over every catalog selection) says is synced. -/
theorem resume_skipped_when_nothing_selected :
    sync_streams_run ["accounts", "contacts"] []
        [⟨"accounts", some false, none⟩, ⟨"contacts", none, none⟩]
        (some "contacts") = [] ∧
    "contacts" ∈ sync_entity_order ["accounts", "contacts"] []
        [⟨"accounts", some false, none⟩, ⟨"contacts", none, none⟩] := by
  exact ⟨by decide, by decide⟩

/-- C3 (amended): provided at least one stream is selected, a run with
`current_stream = X` syncs exactly the plan occurrences of X — so X runs
whatever its own selection flag says and nothing preceding X in plan order
runs — and a run with `current_stream` unset syncs an entity iff it is
selected. -/
theorem resume_eligibility (built_in_bulk_objects activity_streams : List String)
    (catalog : List CatStream)
    (hsel : get_selected_streams catalog ≠ []) :
    (∀ X, X ∈ sync_entity_order built_in_bulk_objects activity_streams catalog →
      X ∈ sync_streams_run built_in_bulk_objects activity_streams catalog (some X) ∧
      ∀ Y ∈ sync_streams_run built_in_bulk_objects activity_streams catalog (some X),
        Y = X) ∧
    (∀ Y, Y ∈ sync_streams_run built_in_bulk_objects activity_streams catalog none ↔
      (Y ∈ sync_entity_order built_in_bulk_objects activity_streams catalog ∧
        Y ∈ get_selected_streams catalog)) := by
  have hne : ¬ (get_selected_streams catalog).isEmpty := by
    simpa [List.isEmpty_iff] using hsel
  constructor
  · intro X hX
    constructor
    · unfold sync_streams_run
      rw [if_neg hne]
      refine List.mem_filter.mpr ⟨hX, ?_⟩
      exact (should_sync_stream_eq_true _ _ _).mpr (Or.inl rfl)
    · intro Y hY
      unfold sync_streams_run at hY
      rw [if_neg hne] at hY
      have h := (should_sync_stream_eq_true _ _ _).mp (List.mem_filter.mp hY).2
      rcases h with h | h
      · exact (Option.some.inj h).symm
      · cases h.1
  · intro Y
    unfold sync_streams_run
    rw [if_neg hne]
    rw [List.mem_filter]
    constructor
    · rintro ⟨hmem, hcond⟩
      have h := (should_sync_stream_eq_true _ _ _).mp hcond
      rcases h with h | h
      · cases h
      · exact ⟨hmem, h.2⟩
    · rintro ⟨hmem, hselY⟩
      exact ⟨hmem, (should_sync_stream_eq_true _ _ _).mpr (Or.inr ⟨rfl, hselY⟩)⟩

/-- Witness for `resume_eligibility`: `contacts` is explicitly deselected yet
is synced when it is the interrupted entity. -/
theorem resume_eligibility_witness :
    "contacts" ∈ sync_streams_run ["accounts", "contacts"] []
      [⟨"accounts", some true, none⟩, ⟨"contacts", some false, none⟩]
      (some "contacts") :=
  ((resume_eligibility ["accounts", "contacts"] []
      [⟨"accounts", some true, none⟩, ⟨"contacts", some false, none⟩]
      (by decide)).1 "contacts" (by decide)).1

/-! The four paged REST fetchers (`sync_campaigns`, `sync_emails`,
`sync_forms`, `sync_visitors`; sync.py lines 197-331).  A record is reduced
to its update-time value (campaigns, emails and forms read
`int(record['updatedAt'])`; visitors read the numeric
`record['v_LastVisitDateAndTime']`); `iso` stands for pendulum's
`from_timestamp(..).to_iso8601_string()` conversion, kept abstract.  Pages
arrive in the order the server returns them; the loop breaks after the first
page shorter than the requested `count`. -/

/-- The shared page loop of the four fetchers: per non-empty page, write the
bookmark recomputed from the page's last record; break on a short page.
Returns the final state and the bookmark values written, in order. -/
def rest_paged_loop (stream : String) (iso : Int → String) (count : Nat) :
    List (List Int) → TapState → TapState × List String
  | [], state => (state, [])
  | records :: rest, state =>
    if records.isEmpty then
      if records.length < count then (state, [])
      else rest_paged_loop stream iso count rest state
    else
      let w := iso (records.getLastD 0)
      if records.length < count then (write_bookmark state stream w, [w])
      else
        let next := rest_paged_loop stream iso count rest (write_bookmark state stream w)
        (next.1, w :: next.2)

def sync_campaigns (iso : Int → String) (pages : List (List Int)) (state : TapState) :
    TapState × List String :=
  rest_paged_loop "campaigns" iso 1000 pages state

def sync_emails (iso : Int → String) (pages : List (List Int)) (state : TapState) :
    TapState × List String :=
  rest_paged_loop "emails" iso 1000 pages state

def sync_forms (iso : Int → String) (pages : List (List Int)) (state : TapState) :
    TapState × List String :=
  rest_paged_loop "forms" iso 1000 pages state

def sync_visitors (iso : Int → String) (pages : List (List Int)) (state : TapState) :
    TapState × List String :=
  rest_paged_loop "visitors" iso 1000 pages state

/-- The update-time values the loop bookmarks, before the `iso` conversion:
the last record of each non-empty page, up to and including the first short
page. -/
def paged_watermarks (count : Nat) : List (List Int) → List Int
  | [] => []
  | records :: rest =>
    (if records.isEmpty then [] else [records.getLastD 0]) ++
      (if records.length < count then [] else paged_watermarks count rest)

theorem rest_paged_loop_written (stream : String) (iso : Int → String) (count : Nat) :
    ∀ (pages : List (List Int)) (state : TapState),
    (rest_paged_loop stream iso count pages state).2 =
      (paged_watermarks count pages).map iso := by
  intro pages
  induction pages with
  | nil => intro state; rfl
  | cons records rest ih =>
    intro state
    by_cases hemp : records.isEmpty
    · by_cases hshort : records.length < count
      · simp [rest_paged_loop, paged_watermarks, hemp, hshort]
      · simp [rest_paged_loop, paged_watermarks, hemp, hshort, ih]
    · by_cases hshort : records.length < count
      · simp [rest_paged_loop, paged_watermarks, hemp, hshort]
      · simp [rest_paged_loop, paged_watermarks, hemp, hshort, ih]

theorem getLastD_mem_of_ne_nil {l : List Int} (h : l ≠ []) : l.getLastD 0 ∈ l := by
  rw [List.getLastD_eq_getLast? 0 l, List.getLast?_eq_getLast l h]
  exact List.getLast_mem h

theorem paged_watermarks_mem_flatten (count : Nat) :
    ∀ (pages : List (List Int)) (w : Int),
    w ∈ paged_watermarks count pages → w ∈ pages.flatten := by
  intro pages
  induction pages with
  | nil =>
    intro w hw
    simp [paged_watermarks] at hw
  | cons records rest ih =>
    intro w hw
    unfold paged_watermarks at hw
    rcases List.mem_append.mp hw with hw1 | hw2
    · by_cases hemp : records.isEmpty
      · rw [if_pos hemp] at hw1
        cases hw1
      · rw [if_neg hemp] at hw1
        have hne : records ≠ [] := by
          intro h
          rw [h] at hemp
          exact hemp rfl
        rcases List.mem_singleton.mp hw1 with rfl
        exact List.mem_flatten.mpr ⟨records, List.mem_cons_self _ _,
          getLastD_mem_of_ne_nil hne⟩
    · by_cases hshort : records.length < count
      · rw [if_pos hshort] at hw2
        cases hw2
      · rw [if_neg hshort] at hw2
        have := ih w hw2
        rw [List.flatten_cons]
        exact List.mem_append_right _ this

theorem paged_watermarks_chain (count : Nat) :
    ∀ pages : List (List Int), List.Sorted (· ≤ ·) pages.flatten →
    List.Chain' (· ≤ ·) (paged_watermarks count pages) := by
  intro pages
  induction pages with
  | nil => intro _; exact List.chain'_nil
  | cons records rest ih =>
    intro hsort
    rw [List.flatten_cons] at hsort
    have hcross : ∀ a ∈ records, ∀ b ∈ rest.flatten, a ≤ b :=
      (List.pairwise_append.mp hsort).2.2
    have hrest : List.Sorted (· ≤ ·) rest.flatten := (List.pairwise_append.mp hsort).2.1
    unfold paged_watermarks
    by_cases hshort : records.length < count
    · rw [if_pos hshort, List.append_nil]
      by_cases hemp : records.isEmpty
      · rw [if_pos hemp]
        exact List.chain'_nil
      · rw [if_neg hemp]
        exact List.chain'_singleton _
    · rw [if_neg hshort]
      by_cases hemp : records.isEmpty
      · rw [if_pos hemp, List.nil_append]
        exact ih hrest
      · rw [if_neg hemp, List.singleton_append]
        rw [List.chain'_cons']
        refine ⟨?_, ih hrest⟩
        intro y hy
        have hyw : y ∈ paged_watermarks count rest := List.mem_of_mem_head? hy
        have hyf : y ∈ rest.flatten := paged_watermarks_mem_flatten count rest y hyw
        have hne : records ≠ [] := by
          intro h
          rw [h] at hemp
          exact hemp rfl
        exact hcross _ (getLastD_mem_of_ne_nil hne) y hyf

/-- C9: when the server returns the run's records in ascending update-time
order, the sequence of watermarks written by any of the four paged fetchers
is non-decreasing: as raw timestamps, and as the written strings for any
`iso` conversion that respects the timestamp order. -/
theorem paged_fetcher_watermarks_monotone (iso : Int → String)
    (pages : List (List Int)) (state : TapState)
    (hiso : ∀ x y : Int, x ≤ y → strLe (iso x) (iso y) = true)
    (hsort : List.Sorted (· ≤ ·) pages.flatten) :
    List.Chain' (· ≤ ·) (paged_watermarks 1000 pages) ∧
    List.Chain' (fun a b => strLe a b = true) ((sync_campaigns iso pages state).2) ∧
    List.Chain' (fun a b => strLe a b = true) ((sync_emails iso pages state).2) ∧
    List.Chain' (fun a b => strLe a b = true) ((sync_forms iso pages state).2) ∧
    List.Chain' (fun a b => strLe a b = true) ((sync_visitors iso pages state).2) := by
  have hints := paged_watermarks_chain 1000 pages hsort
  have hmap : List.Chain' (fun a b => strLe a b = true)
      ((paged_watermarks 1000 pages).map iso) := by
    rw [List.chain'_map]
    exact hints.imp (fun a b hab => hiso a b hab)
  refine ⟨hints, ?_, ?_, ?_, ?_⟩
  · rw [sync_campaigns, rest_paged_loop_written]
    exact hmap
  · rw [sync_emails, rest_paged_loop_written]
    exact hmap
  · rw [sync_forms, rest_paged_loop_written]
    exact hmap
  · rw [sync_visitors, rest_paged_loop_written]
    exact hmap

/-- Witness for `paged_fetcher_watermarks_monotone` with three ascending
records over two pages and a constant (hence order-respecting) conversion. -/
theorem paged_fetcher_watermarks_monotone_witness :
    List.Chain' (fun a b => strLe a b = true)
      ((sync_campaigns (fun _ => "2021-01-01T00:00:00+00:00") [[1, 2], [3]]
        ⟨none, none⟩).2) :=
  (paged_fetcher_watermarks_monotone (fun _ => "2021-01-01T00:00:00+00:00")
    [[1, 2], [3]] ⟨none, none⟩ (fun x y _ => strLe_refl _) (by decide)).2.1

end TapEloqua
